import Mathlib

/-!
Verification of the batch job orchestration engine of the firefly-services CLI.

Strings are modelled as `List Char` (`Str`).  Each definition is a shallow
embedding of the corresponding Python function:

* `findBlocks`, `parse_prompt_variations`, `parse_model_variations`,
  `parse_style_ref_variations` — `src/utils/filename.py` and
  `src/services/image.py` (the regex `\[(.*?)\]` is embedded directly: a
  match is the first unescaped `]` after a `[` with no newline in between;
  the replacement text of `re.sub` is substituted verbatim, as all option
  strings in scope are plain text).
* `expandTasks`, `resolveModels` — the nested generation loops of
  `handle_image_command` in `src/cli/commands.py`.
* `get_unique_filename`, `replace_filename_tokens`, `get_variation_filename`,
  `splitext` — `src/utils/filename.py`; the filesystem is a finite list of
  existing paths, and the wall clock is an explicit `Clock` record.
* `RateLimiter.acquire` — `src/utils/rate_limiter.py`, time as `ℚ`, with
  `time.sleep(s)` advancing the clock by exactly `s`.
* `check_job_status`, `generate_image` retry loop, `replace_bg_task` retry
  loop — `src/cli/commands.py` and `src/services/image.py`, with remote
  responses supplied by oracles and exceptions as `Except`.
-/

abbrev Str := List Char

/-- Python `str.isspace` restricted to the ASCII whitespace characters that
`str.strip()` removes. -/
def isPySpace (c : Char) : Bool :=
  c = ' ' || c = '\t' || c = '\n' || c = '\r' || c = '\x0b' || c = '\x0c'

/-- Python `str.strip()`. -/
def pyStrip (l : Str) : Str :=
  ((l.dropWhile isPySpace).reverse.dropWhile isPySpace).reverse

/-- Python `s.split(',')`: always returns at least one (possibly empty) part. -/
def splitOnComma : Str → List Str
  | [] => [[]]
  | ',' :: rest => [] :: splitOnComma rest
  | c :: rest =>
    match splitOnComma rest with
    | [] => [[c]]
    | h :: t => (c :: h) :: t

/-- Scan for the closing `]` of a bracket block: the regex `\[(.*?)\]` matches
the shortest run of non-newline characters up to the next `]`.  Returns the
block content and the remainder after the `]`. -/
def findClose : Str → Option (Str × Str)
  | [] => none
  | c :: rest =>
    if c = ']' then some ([], rest)
    else if c = '\n' then none
    else (findClose rest).map (fun p => (c :: p.1, p.2))

/-- Structural worker for `findBlocks`; the fuel never runs out because each
step consumes at least one character (`findClose` never returns a longer
remainder). -/
def findBlocksF : ℕ → Str → List Str
  | 0, _ => []
  | fuel + 1, l =>
    match l with
    | [] => []
    | c :: rest =>
      if c = '[' then
        match findClose rest with
        | some (b, r) => b :: findBlocksF fuel r
        | none => findBlocksF fuel rest
      else findBlocksF fuel rest

/-- All matches of `re.findall(r'\[(.*?)\]', s)`, in order.  When a `[` has no
matchable `]` (end of string or a newline first) the scan resumes at the next
character, as the regex engine does. -/
def findBlocks (l : Str) : List Str := findBlocksF l.length l

/-- Python `re.sub(r'\[.*?\]', v, s, count=1)`: replace the first bracket
block with `v`. -/
def replaceFirstBlock (v : Str) : Str → Str
  | [] => []
  | c :: rest =>
    if c = '[' then
      match findClose rest with
      | some (_, r) => v ++ r
      | none => c :: replaceFirstBlock v rest
    else c :: replaceFirstBlock v rest

/-- Cartesian product of a list of option lists, in `itertools.product` order
(rightmost axis varies fastest). -/
def listProduct : List (List α) → List (List α)
  | [] => [[]]
  | xs :: rest => xs.flatMap (fun x => (listProduct rest).map (x :: ·))

/-- Embedding of `parse_prompt_variations` (src/utils/filename.py:128-158).
Returns the expanded prompt list and the raw variation blocks. -/
def parse_prompt_variations (prompt : Str) : List Str × List Str :=
  let blocks := findBlocks prompt
  if blocks = [] then ([prompt], [])
  else
    let options := blocks.map splitOnComma
    let combos := listProduct options
    let prompts := combos.map
      (fun combo => combo.foldl (fun cur v => replaceFirstBlock (pyStrip v) cur) prompt)
    (prompts, blocks)

/-- Embedding of `normalize_model_name` (src/services/image.py): the mapping
only changes `image4` and `ultra`; every other key maps to itself and unknown
names pass through. -/
def normalize_model_name (m : Str) : Str :=
  if m = ("image4").data then ("image4_standard").data
  else if m = ("ultra").data then ("image4_ultra").data
  else m

/-- Embedding of `parse_model_variations` (src/services/image.py). -/
def parse_model_variations (s : Str) : List Str :=
  if '[' ∈ s ∧ ']' ∈ s then
    match (findBlocks s).head? with
    | some b => (splitOnComma b).map (fun m => normalize_model_name (pyStrip m))
    | none => [normalize_model_name s]
  else [normalize_model_name s]

/-- Embedding of `parse_style_ref_variations` (src/services/image.py). -/
def parse_style_ref_variations (s : Str) : List Str :=
  if '[' ∈ s ∧ ']' ∈ s then
    match (findBlocks s).head? with
    | some b => (splitOnComma b).map pyStrip
    | none => if s = [] then [] else [s]
  else if s = [] then [] else [s]

/-- The style/composition reference axis of `handle_image_command`:
`parse_style_ref_variations(arg) if arg else [None]`. -/
def styleRefAxis (arg : Option Str) : List (Option Str) :=
  match arg with
  | none => [none]
  | some s => if s = [] then [none] else (parse_style_ref_variations s).map some

/-- The standard model set of `handle_image_command`
(src/cli/commands.py:180). -/
def STANDARD_MODELS : List Str :=
  [("image3").data, ("image4").data, ("image4_standard").data,
   ("image4_ultra").data, ("ultra").data]

/-- Model resolution loop of `handle_image_command`: standard models pass
through, other names are resolved to a custom-model asset id by the remote
lookup (oracle `lookup`); a failed lookup exits the process (`none`). -/
def resolveModels (lookup : Str → Option Str) : List Str → Option (List Str)
  | [] => some []
  | m :: rest =>
    let ms := pyStrip m
    if ms ∈ STANDARD_MODELS then (resolveModels lookup rest).map (ms :: ·)
    else
      match lookup ms with
      | some assetId => (resolveModels lookup rest).map (assetId :: ·)
      | none => none

/-- One concrete generation task of the expansion. -/
structure TaskSpec where
  model : Str
  styleRef : Option Str
  compRef : Option Str
  prompt : Str
  iteration : ℕ
  deriving DecidableEq, Repr

/-- The nested task-generation loops of `handle_image_command`
(src/cli/commands.py:723-732): model → style-ref → composition-ref →
prompt → iteration index. -/
def expandTasks (models : List Str) (styleRefs compRefs : List (Option Str))
    (prompts : List Str) (n : ℕ) : List TaskSpec :=
  models.flatMap fun m =>
    styleRefs.flatMap fun s =>
      compRefs.flatMap fun c =>
        prompts.flatMap fun p =>
          (List.range n).map fun j => ⟨m, s, c, p, j⟩

instance {ε α : Type _} [DecidableEq ε] [DecidableEq α] :
    DecidableEq (Except ε α) := fun a b =>
  match a, b with
  | .error e, .error f =>
    if h : e = f then .isTrue (by rw [h])
    else .isFalse (by intro hh; cases hh; exact h rfl)
  | .error _, .ok _ => .isFalse (by intro hh; cases hh)
  | .ok _, .error _ => .isFalse (by intro hh; cases hh)
  | .ok x, .ok y =>
    if h : x = y then .isTrue (by rw [h])
    else .isFalse (by intro hh; cases hh; exact h rfl)

/-- Python `os.path.basename` for POSIX paths: the part after the last `/`. -/
def pyBasename (p : Str) : Str :=
  (p.reverse.takeWhile (fun c => c ≠ '/')).reverse

/-- Index of the last occurrence of `c` in `l` (Python `str.rfind`). -/
def rfindIdx (c : Char) (l : Str) : Option ℕ :=
  match l.reverse.findIdx? (fun x => x = c) with
  | some j => some (l.length - 1 - j)
  | none => none

/-- Python `os.path.splitext`: split off the extension at the last dot of the
final path component, unless every character between the component start and
that dot is itself a dot. -/
def splitext (p : Str) : Str × Str :=
  let sepIdx : ℤ := match rfindIdx '/' p with | some i => (i : ℤ) | none => -1
  let dotIdx : ℤ := match rfindIdx '.' p with | some i => (i : ℤ) | none => -1
  if sepIdx < dotIdx then
    let start : ℕ := (sepIdx + 1).toNat
    let stop : ℕ := dotIdx.toNat
    if ((p.drop start).take (stop - start)).any (fun ch => ch ≠ '.') then
      (p.take stop, p.drop stop)
    else (p, [])
  else (p, [])

/-- The ASCII digit character for `d < 10`. -/
def digitChar (d : ℕ) : Char := Char.ofNat (48 + d)

/-- Structural worker for `natDigits` (fuel larger than the value suffices). -/
def natDigitsF : ℕ → ℕ → Str
  | 0, _ => []
  | fuel + 1, n =>
    if n < 10 then [digitChar n]
    else natDigitsF fuel (n / 10) ++ [digitChar (n % 10)]

/-- Python `str(n)` for a natural number: its decimal digits. -/
def natDigits (n : ℕ) : Str := natDigitsF (n + 1) n

/-- Decimal valuation, the left inverse of `natDigits`. -/
def digitsVal (l : Str) : ℕ := l.foldl (fun a c => 10 * a + (c.toNat - 48)) 0

/-- The candidate filename `f"{name}_{counter}{ext}"` tried by the collision
loop of `get_unique_filename`. -/
def uniqueCandidate (name ext : Str) (k : ℕ) : Str :=
  name ++ '_' :: (natDigits k ++ ext)

/-- The `while True` search of `get_unique_filename`: the first counter at or
after `k` whose candidate is not an existing path.  The fuel never runs out in
`get_unique_filename` because `fs.length + 1` distinct candidates cannot all
lie in `fs`. -/
def firstFreeFrom (fs : List Str) (name ext : Str) : ℕ → ℕ → ℕ
  | 0, k => k
  | fuel + 1, k =>
    if uniqueCandidate name ext k ∈ fs then firstFreeFrom fs name ext fuel (k + 1)
    else k

/-- Embedding of `get_unique_filename` (src/utils/filename.py:91-126).  The
filesystem state is the finite list `fs` of existing paths; the directory
creation side effect has no bearing on the returned value. -/
def get_unique_filename (fs : List Str) (base : Str) (overwrite : Bool) : Str :=
  if overwrite = true ∨ base ∉ fs then base
  else
    let ne := splitext base
    uniqueCandidate ne.1 ne.2 (firstFreeFrom fs ne.1 ne.2 (fs.length + 1) 1)

/-- Replace every space with an underscore (Python `s.replace(' ', '_')`). -/
def spaceToUnderscore (l : Str) : Str :=
  l.map (fun c => if c = ' ' then '_' else c)

/-- Substring test (Python `pat in s`). -/
def isSubstr (pat : Str) : Str → Bool
  | [] => pat.isEmpty
  | c :: rest => pat.isPrefixOf (c :: rest) || isSubstr pat rest

/-- Structural worker for `replaceAll` (fuel = length of the subject). -/
def replaceAllF : ℕ → Str → Str → Str → Str
  | 0, _, _, l => l
  | fuel + 1, pat, rep, l =>
    match l with
    | [] => []
    | c :: rest =>
      if pat ≠ [] ∧ pat.isPrefixOf (c :: rest) then
        rep ++ replaceAllF fuel pat rep ((c :: rest).drop pat.length)
      else c :: replaceAllF fuel pat rep rest

/-- Python `s.replace(pat, rep)`: all non-overlapping occurrences, left to
right.  (All patterns used by the code are non-empty.) -/
def replaceAll (pat rep l : Str) : Str := replaceAllF l.length pat rep l

/-- The wall-clock readings consumed by `replace_filename_tokens` — the three
`datetime.now(UTC).strftime` renderings. -/
structure Clock where
  dateS : Str
  timeS : Str
  datetimeS : Str
  deriving DecidableEq

/-- The token dictionary built by `image_task` (src/cli/commands.py:613-621),
plus the `variations` entry added by `get_variation_filename`. -/
structure Tokens where
  prompt : Str
  model : Str
  size : Option (ℕ × ℕ)
  seeds : List ℕ
  styleRef : Option Str
  compRef : Option Str
  iteration : ℕ
  variations : List Str
  deriving DecidableEq

/-- Python `'_'.join(parts)`. -/
def joinUnderscore : List Str → Str
  | [] => []
  | [x] => x
  | x :: rest => x ++ '_' :: joinUnderscore rest

/-- Rendered value of the `\x7bprompt\x7d` token
(src/utils/filename.py:176): spaces become underscores, then the result is
truncated to 30 characters. -/
def promptTokenValue (t : Tokens) : Str := (spaceToUnderscore t.prompt).take 30

/-- Rendered value of the `\x7bseed\x7d` token. -/
def seedTokenValue (t : Tokens) : Str :=
  if t.seeds = [] then [] else joinUnderscore (t.seeds.map natDigits)

/-- Rendered value of the `\x7bsr\x7d` token. -/
def srTokenValue (t : Tokens) : Str :=
  match t.styleRef with
  | some s => (splitext (pyBasename s)).1
  | none => []

/-- Rendered value of the `\x7bwidth\x7d` token; with no size recorded the
source evaluates `None.get('width', '')` and raises (`.error`). -/
def widthTokenValue (t : Tokens) : Except Unit Str :=
  match t.size with
  | some s => .ok (natDigits s.1)
  | none => .error ()

/-- Rendered value of the `\x7bheight\x7d` token (same failure mode as
`widthTokenValue`). -/
def heightTokenValue (t : Tokens) : Except Unit Str :=
  match t.size with
  | some s => .ok (natDigits s.2)
  | none => .error ()

/-- Rendered value of the `\x7bdimensions\x7d` token (guarded by
`if t.get('size')`, so no failure). -/
def dimensionsTokenValue (t : Tokens) : Str :=
  match t.size with
  | some s => natDigits s.1 ++ 'x' :: natDigits s.2
  | none => []

/-- The pattern `\x7bvarN\x7d` for the N-th variation value (1-based). -/
def varPattern (i : ℕ) : Str :=
  '\x7b' :: (("var").data ++ natDigits i ++ ['\x7d'])

/-- The ordered token-pattern table of `replace_filename_tokens`
(src/utils/filename.py:175-191): fixed tokens in dict insertion order, then
one `\x7bvarN\x7d` entry per variation value. -/
def tokenPatterns (t : Tokens) (c : Clock) : List (Str × Except Unit Str) :=
  [(("{prompt}").data, .ok (promptTokenValue t)),
   (("{date}").data, .ok c.dateS),
   (("{time}").data, .ok c.timeS),
   (("{datetime}").data, .ok c.datetimeS),
   (("{seed}").data, .ok (seedTokenValue t)),
   (("{sr}").data, .ok (srTokenValue t)),
   (("{model}").data, .ok t.model),
   (("{width}").data, widthTokenValue t),
   (("{height}").data, heightTokenValue t),
   (("{dimensions}").data, .ok (dimensionsTokenValue t)),
   (("{n}").data, .ok (natDigits t.iteration))]
  ++ t.variations.enum.map
      (fun p => (varPattern (p.1 + 1), Except.ok (spaceToUnderscore p.2)))

/-- One step of the replacement loop: a value is only computed (and can only
fail) when its pattern occurs in the current result, as in the source's
`if pattern in result`. -/
def applyPattern (res : Except Unit Str) (p : Str × Except Unit Str) :
    Except Unit Str :=
  match res with
  | .error e => .error e
  | .ok r =>
    if isSubstr p.1 r then (p.2).map (fun v => replaceAll p.1 v r) else .ok r

/-- Embedding of `replace_filename_tokens` (src/utils/filename.py:160-202). -/
def replace_filename_tokens (filename : Str) (t : Tokens) (c : Clock) :
    Except Unit Str :=
  (tokenPatterns t c).foldl applyPattern (.ok filename)

/-- The first option of a variation block that occurs in the expanded prompt
(the inner loop of `get_variation_filename`). -/
def pickVariationValue (prompt block : Str) : Option Str :=
  ((splitOnComma block).map pyStrip).find? (fun o => isSubstr o prompt)

/-- Embedding of `get_variation_filename` (src/utils/filename.py:204-246), in
the `tokens is not None` case used by `image_task`. -/
def get_variation_filename (base prompt origPrompt : Str) (t : Tokens)
    (c : Clock) : Except Unit Str :=
  let ne := splitext base
  let variationValues := (findBlocks origPrompt).filterMap (pickVariationValue prompt)
  let suffix := joinUnderscore (variationValues.map
    (fun v => v.filter (fun ch => ch.isAlphanum || isPySpace ch)))
  let t' := { t with variations := variationValues }
  (replace_filename_tokens ne.1 t' c).map (fun name =>
    let name2 :=
      if ¬ isSubstr (("{model}").data) base ∧ t.model ≠ [] then
        name ++ '_' :: t.model
      else name
    name2 ++ '_' :: (suffix ++ ne.2))

/-- Render-then-resolve composition of the filename engine:
`replace_filename_tokens` followed by `get_unique_filename`. -/
def renderResolve (template : Str) (t : Tokens) (c : Clock) (fs : List Str)
    (overwrite : Bool) : Except Unit Str :=
  (replace_filename_tokens template t c).map
    (fun p => get_unique_filename fs p overwrite)

/-- The full per-task filename pipeline of `image_task`:
`get_variation_filename` then `get_unique_filename`. -/
def taskFilename (output prompt origPrompt : Str) (t : Tokens) (c : Clock)
    (fs : List Str) (overwrite : Bool) : Except Unit Str :=
  (get_variation_filename output prompt origPrompt t c).map
    (fun p => get_unique_filename fs p overwrite)

/-- A concrete token dictionary as `image_task` builds it for the prompt
`sunset`, model `image3`, iteration 1, with no size, seeds or references. -/
def sampleTokens : Tokens :=
  { prompt := ("sunset").data, model := ("image3").data, size := none,
    seeds := [], styleRef := none, compRef := none, iteration := 1,
    variations := [] }

/-- A token dictionary whose prompt is longer than 30 characters. -/
def longPromptTokens : Tokens :=
  { sampleTokens with
    prompt := ("a very long prompt that goes on and on and on").data }

/-- A concrete clock reading. -/
def sampleClock : Clock :=
  { dateS := ("20250101").data, timeS := ("000000").data,
    datetimeS := ("20250101_000000").data }

/-- A clock reading one second later than `sampleClock`. -/
def sampleClock2 : Clock :=
  { dateS := ("20250101").data, timeS := ("000001").data,
    datetimeS := ("20250101_000001").data }

/-- A Python exception value, carrying its message. -/
inductive PyExc where
  | exc (msg : Str)
  deriving DecidableEq

/-- The error classes distinguished by the retry logic: `requests.HTTPError`
with its response status code, other `requests.RequestException` network
errors, and any other exception. -/
inductive ApiErr where
  | http (code : ℕ)
  | net
  | other (msg : Str)
  deriving DecidableEq

/-- The retry loop of `generate_image` (src/services/image.py:10-53): the
attempt oracle `res` gives each submission attempt's outcome; 5xx responses
and network errors are retried with exponential backoff
`baseDelay * 2 ^ attempt` while `attempt < maxRetries`; every other error —
in particular HTTP 429 — is re-raised at once.  Returns the final outcome
paired with the total time slept; `none` is the unreachable loop fall-off. -/
def generate_image_go {α : Type _} (res : ℕ → Except ApiErr α)
    (maxRetries : ℕ) (baseDelay : ℚ) : ℕ → ℕ → Option (Except ApiErr α × ℚ)
  | _, 0 => none
  | attempt, fuel + 1 =>
    match res attempt with
    | .ok a => some (.ok a, 0)
    | .error (.http c) =>
      if 500 ≤ c ∧ c < 600 then
        if attempt < maxRetries then
          (generate_image_go res maxRetries baseDelay (attempt + 1) fuel).map
            (fun p => (p.1, p.2 + baseDelay * 2 ^ attempt))
        else some (.error (.http c), 0)
      else some (.error (.http c), 0)
    | .error .net =>
      if attempt < maxRetries then
        (generate_image_go res maxRetries baseDelay (attempt + 1) fuel).map
          (fun p => (p.1, p.2 + baseDelay * 2 ^ attempt))
      else some (.error .net, 0)
    | .error (.other m) => some (.error (.other m), 0)

/-- Embedding of `generate_image`: `for attempt in range(max_retries + 1)`. -/
def generate_image {α : Type _} (res : ℕ → Except ApiErr α) (maxRetries : ℕ)
    (baseDelay : ℚ) : Option (Except ApiErr α × ℚ) :=
  generate_image_go res maxRetries baseDelay 0 (maxRetries + 1)

/-- The retry loop of `replace_bg_task` (src/cli/commands.py:2000-2100): the
attempt oracle gives each attempt's outcome (`.ok b` for a normal return,
`.error e` for a raised exception).  A 429 before the last attempt sleeps
`retryDelay` and retries; any other exception, or a 429 on the last attempt,
returns `False`.  Result is paired with the total time slept. -/
def replace_bg_go (att : ℕ → Except ApiErr Bool) (maxRetries retryDelay : ℕ) :
    ℕ → ℕ → Option (Bool × ℕ)
  | _, 0 => none
  | attempt, fuel + 1 =>
    match att attempt with
    | .ok b => some (b, 0)
    | .error (.http c) =>
      if c = 429 then
        if attempt < maxRetries - 1 then
          (replace_bg_go att maxRetries retryDelay (attempt + 1) fuel).map
            (fun p => (p.1, p.2 + retryDelay))
        else some (false, 0)
      else some (false, 0)
    | .error _ => some (false, 0)

/-- Embedding of `replace_bg_task` with its hard-coded `max_retries = 3` and
`retry_delay = 70`. -/
def replace_bg_task (att : ℕ → Except ApiErr Bool) : Option (Bool × ℕ) :=
  replace_bg_go att 3 70 0 3

/-- A remote status response body: the `status` and `error` fields of the
JSON object (a missing field is `none`). -/
structure StatusData where
  status : Option Str
  error : Option Str
  deriving DecidableEq

/-- Outcome of the poll loop: the full response on `succeeded`, the raised
exception's message on `failed`. -/
inductive PollOutcome where
  | succeeded (d : StatusData)
  | failed (msg : Str)
  deriving DecidableEq

/-- The message of the exception raised on a `failed` status:
`f"Job failed: {status_data.get('error', 'Unknown error')}"`. -/
def jobFailedMsg (d : StatusData) : Str :=
  ("Job failed: ").data ++ d.error.getD (("Unknown error").data)

/-- A response is terminal when its status is `succeeded` or `failed`. -/
def isTerminal (d : StatusData) : Bool :=
  d.status = some (("succeeded").data) || d.status = some (("failed").data)

/-- The `while True` poll loop of `check_job_status`
(src/cli/commands.py:2125-2170), reading the `k`-th, `k+1`-th, … responses
from the oracle `resp`; every non-terminal response adds a 2-unit sleep.
`none` means the fuel ran out with no terminal response seen — the source
loop would still be polling. -/
def check_job_status_from (resp : ℕ → StatusData) :
    ℕ → ℕ → Option (PollOutcome × ℕ)
  | 0, _ => none
  | fuel + 1, k =>
    let d := resp k
    if d.status = some (("succeeded").data) then some (.succeeded d, 0)
    else if d.status = some (("failed").data) then
      some (.failed (jobFailedMsg d), 0)
    else (check_job_status_from resp fuel (k + 1)).map (fun p => (p.1, p.2 + 2))

/-- Embedding of `check_job_status`, polling from the first response. -/
def check_job_status (resp : ℕ → StatusData) (fuel : ℕ) :
    Option (PollOutcome × ℕ) :=
  check_job_status_from resp fuel 0

/-- A remote job handle as returned by the submission call. -/
structure JobInfo where
  jobId : Str
  statusUrl : Str
  deriving DecidableEq

/-- A completed job result: `result.outputs` if both keys are present. -/
structure ImageResult where
  outputs : Option (List Str)
  deriving DecidableEq

/-- The effectful collaborators of one `image_task` work unit; each may raise
(`.error`). -/
structure WorkOracles where
  render : Except PyExc Str
  unique : Str → Except PyExc Str
  submit : Except PyExc JobInfo
  poll : JobInfo → Except PyExc ImageResult
  download : Str → Str → Except PyExc Unit

/-- The body of `image_task`'s `try:` block (src/cli/commands.py:624-706):
submit, poll, then download the first output if present (`return True`),
otherwise fall through to `return False`. -/
def image_task_body (o : WorkOracles) (out : Str) : Except PyExc Bool := do
  let ji ← o.submit
  let res ← o.poll ji
  match res.outputs with
  | some (url :: _) => do
    let _ ← o.download url out
    pure true
  | _ => pure false

/-- Embedding of `image_task` (src/cli/commands.py:610-713).  The rate-limiter
acquisition, filename rendering (`get_variation_filename`) and uniqueness
resolution (`get_unique_filename`) run before the `try:` block, so their
exceptions propagate; the `except Exception` handler converts any exception
of the body into `return False`. -/
def image_task (o : WorkOracles) : Except PyExc Bool :=
  match o.render with
  | .error e => .error e
  | .ok base =>
    match o.unique base with
    | .error e => .error e
    | .ok out =>
      match image_task_body o out with
      | .ok b => .ok b
      | .error _ => .ok false

/-- The dispatcher loop of `handle_image_command`
(src/cli/commands.py:733-734): `for future in as_completed(tasks):
future.result()` — the first re-raised exception propagates out of the
loop. -/
def dispatcherLoop : List (Except PyExc Bool) → Except PyExc Unit
  | [] => .ok ()
  | o :: rest =>
    match o with
    | .error e => .error e
    | .ok _ => dispatcherLoop rest

/-- A work unit whose filename-rendering step raises. -/
def renderFailOracle : WorkOracles :=
  { render := .error (.exc (("boom").data)),
    unique := fun s => .ok s,
    submit := .ok ⟨[], []⟩,
    poll := fun _ => .ok ⟨none⟩,
    download := fun _ _ => .ok () }

/-- A work unit whose submission raises after rendering succeeded. -/
def submitFailOracle : WorkOracles :=
  { render := .ok (("p.png").data),
    unique := fun s => .ok s,
    submit := .error (.exc (("http 500").data)),
    poll := fun _ => .ok ⟨none⟩,
    download := fun _ _ => .ok () }

/-- An in-progress status response. -/
def pendingStatus : StatusData :=
  { status := some (("running").data), error := none }

/-- A succeeded status response. -/
def succeededStatus : StatusData :=
  { status := some (("succeeded").data), error := none }

/-- A response sequence that is pending twice, then succeeds. -/
def pollResp (n : ℕ) : StatusData :=
  if n < 2 then pendingStatus else succeededStatus

/-- Rate-limiter configuration: `max_calls`, `period`, `min_delay`. -/
structure RLConfig where
  maxCalls : ℕ
  period : ℚ
  minDelay : ℚ

/-- Mutable rate-limiter state: the retained call timestamps (oldest first)
and the time of the last admitted call. -/
structure RLState where
  calls : List ℚ
  lastCallTime : ℚ

/-- The freshly constructed limiter: `calls = []`, `last_call_time = 0`. -/
def initRLState : RLState := ⟨[], 0⟩

/-- Embedding of `RateLimiter.acquire` (src/utils/rate_limiter.py:13-35).
`now0` is the `time.time()` reading on entry, and `time.sleep(s)` advances
the clock by exactly `s`.  Returns the updated state and the admission
timestamp; `none` models the `IndexError` on `self.calls[0]`, reachable only
when `max_calls = 0`. -/
def acquire (cfg : RLConfig) (s : RLState) (now0 : ℚ) : Option (RLState × ℚ) :=
  let now1 :=
    if 0 < cfg.minDelay ∧ 0 < s.lastCallTime ∧ now0 - s.lastCallTime < cfg.minDelay
    then s.lastCallTime + cfg.minDelay else now0
  let calls1 := s.calls.filter (fun t => decide (now1 - t < cfg.period))
  if cfg.maxCalls ≤ calls1.length then
    match calls1 with
    | [] => none
    | c0 :: _ =>
      let sleepT := cfg.period - (now1 - c0)
      let now2 := if 0 < sleepT then now1 + sleepT else now1
      let calls2 := calls1.filter (fun t => decide (now2 - t < cfg.period))
      some (⟨calls2 ++ [now2], now2⟩, now2)
  else some (⟨calls1 ++ [now1], now1⟩, now1)

/-- A sequence of `acquire()` calls entered at the given clock readings;
returns the final state and the admission timestamps in order. -/
def runAcquires (cfg : RLConfig) : RLState → List ℚ → Option (RLState × List ℚ)
  | s, [] => some (s, [])
  | s, now :: rest =>
    match acquire cfg s now with
    | none => none
    | some (s', a) =>
      match runAcquires cfg s' rest with
      | none => none
      | some p => some (p.1, a :: p.2)

/-- A clock-reading sequence is admissible when each reading is positive and
no earlier than the previous admission — exactly what consecutive
`time.time()` readings under the limiter's lock guarantee. -/
def admissibleB (cfg : RLConfig) : RLState → List ℚ → Bool
  | _, [] => true
  | s, now :: rest =>
    decide (0 < now) && decide (s.lastCallTime ≤ now) &&
    (match acquire cfg s now with
     | none => true
     | some (s', _) => admissibleB cfg s' rest)

/-- Number of admissions falling in the trailing window `(T - p, T]`. -/
def windowCount (as : List ℚ) (p T : ℚ) : ℕ :=
  ((Finset.range as.length).filter
    (fun i => T - p < as.getD i 0 ∧ as.getD i 0 ≤ T)).card

/-- The limiter's state invariant relative to the full admission history:
the history is nondecreasing with positive entries bounded by
`last_call_time`; `calls` is a suffix of the history whose dropped prefix is
at least one `period` older than the last admission and whose length is at
most `max_calls`; consecutive admissions are at least `min_delay` apart; and
admissions `max_calls` positions apart differ by at least `period`. -/
structure RLInv (cfg : RLConfig) (s : RLState) (hist : List ℚ) : Prop where
  sorted : hist.Sorted (· ≤ ·)
  pos : ∀ x ∈ hist, 0 < x
  hle : ∀ x ∈ hist, x ≤ s.lastCallTime
  lastSpec : (hist = [] ∧ s.lastCallTime = 0 ∧ s.calls = [])
    ∨ hist.getLast? = some s.lastCallTime
  dropSpec : ∃ d, d ≤ hist.length ∧ s.calls = hist.drop d
      ∧ (∀ x ∈ hist.take d, cfg.period ≤ s.lastCallTime - x)
      ∧ hist.length - d ≤ cfg.maxCalls
  chain : hist.Chain' (fun a b => cfg.minDelay ≤ b - a)
  spaced : ∀ i, i + cfg.maxCalls < hist.length →
      cfg.period ≤ hist.getD (i + cfg.maxCalls) 0 - hist.getD i 0

/-! Theorems. -/
theorem length_flatMap_const {α β : Type _} {l : List α} {f : α → List β} {k : ℕ}
    (h : ∀ a, (f a).length = k) : (l.flatMap f).length = l.length * k := by
  induction l with
  | nil => simp
  | cons a rest ih => simp [List.flatMap_cons, h, ih]; ring

theorem listProduct_length {α : Type _} (ls : List (List α)) :
    (listProduct ls).length = (ls.map List.length).prod := by
  induction ls with
  | nil => rfl
  | cons xs rest ih =>
    simp only [listProduct]
    rw [length_flatMap_const (k := (listProduct rest).length) (fun a => by simp)]
    simp [ih]

theorem expandTasks_length (ms : List Str) (ss cs : List (Option Str))
    (ps : List Str) (n : ℕ) :
    (expandTasks ms ss cs ps n).length
      = ms.length * ss.length * cs.length * ps.length * n := by
  unfold expandTasks
  rw [length_flatMap_const (k := ss.length * (cs.length * (ps.length * n)))
    (fun m => by
      rw [length_flatMap_const (k := cs.length * (ps.length * n))
        (fun s => by
          rw [length_flatMap_const (k := ps.length * n)
            (fun c => by
              rw [length_flatMap_const (k := n) (fun p => by simp)])])])]
  ring

theorem parse_prompt_variations_length (p : Str) :
    (parse_prompt_variations p).1.length
      = ((findBlocks p).map (fun b => (splitOnComma b).length)).prod := by
  unfold parse_prompt_variations
  by_cases h : findBlocks p = []
  · simp [h]
  · simp only [h, if_neg]
    simp [listProduct_length, List.map_map, Function.comp_def]

theorem resolveModels_length (lookup : Str → Option Str) :
    ∀ l r, resolveModels lookup l = some r → r.length = l.length := by
  intro l
  induction l with
  | nil => intro r h; simp [resolveModels] at h; simp [← h]
  | cons m rest ih =>
    intro r h
    simp only [resolveModels] at h
    split at h
    · cases hr : resolveModels lookup rest with
      | none => rw [hr] at h; simp at h
      | some r' => rw [hr] at h; simp at h; simp [← h, ih r' hr]
    · split at h
      · cases hr : resolveModels lookup rest with
        | none => rw [hr] at h; simp at h
        | some r' => rw [hr] at h; simp at h; simp [← h, ih r' hr]
      · simp at h

/-- C3: for every set of parameter strings (model, style reference, composition
reference, prompt with zero or more bracket blocks, iteration count), the
number of concrete tasks produced by the expansion equals the product of the
sizes of all axes, and repeated expansion of identical input yields the
identical ordered list. -/
theorem expansion_count_eq_product (lookup : Str → Option Str)
    (modelStr promptStr : Str) (styleArg compArg : Option Str) (n : ℕ)
    (resolved : List Str)
    (h : resolveModels lookup (parse_model_variations modelStr) = some resolved) :
    (expandTasks resolved (styleRefAxis styleArg) (styleRefAxis compArg)
        (parse_prompt_variations promptStr).1 n).length
      = (parse_model_variations modelStr).length * (styleRefAxis styleArg).length
        * (styleRefAxis compArg).length
        * ((findBlocks promptStr).map (fun b => (splitOnComma b).length)).prod * n
    ∧ expandTasks resolved (styleRefAxis styleArg) (styleRefAxis compArg)
          (parse_prompt_variations promptStr).1 n
        = expandTasks resolved (styleRefAxis styleArg) (styleRefAxis compArg)
          (parse_prompt_variations promptStr).1 n := by
  refine ⟨?_, rfl⟩
  rw [expandTasks_length, resolveModels_length lookup _ _ h,
    parse_prompt_variations_length]

/-- Witness for C3 at a concrete input. -/
theorem expansion_count_eq_product_witness :
    resolveModels (fun _ => none) (parse_model_variations (("[image3,image4]").data))
        = some [("image3").data, ("image4_standard").data]
    ∧ ((expandTasks [("image3").data, ("image4_standard").data] (styleRefAxis none)
          (styleRefAxis none) (parse_prompt_variations (("a [cat,dog]").data)).1 2).length
        = (parse_model_variations (("[image3,image4]").data)).length
          * (styleRefAxis none).length * (styleRefAxis none).length
          * ((findBlocks (("a [cat,dog]").data)).map
              (fun b => (splitOnComma b).length)).prod * 2
      ∧ expandTasks [("image3").data, ("image4_standard").data] (styleRefAxis none)
            (styleRefAxis none) (parse_prompt_variations (("a [cat,dog]").data)).1 2
          = expandTasks [("image3").data, ("image4_standard").data] (styleRefAxis none)
            (styleRefAxis none) (parse_prompt_variations (("a [cat,dog]").data)).1 2) :=
  ⟨by decide,
   expansion_count_eq_product (fun _ => none) (("[image3,image4]").data)
     (("a [cat,dog]").data) none none 2
     [("image3").data, ("image4_standard").data] (by decide)⟩

/-- C4 counterexample: with model `[image3,image4]`, prompt `a [cat,dog]` and
one iteration, the expansion is not the task list claimed, because
`parse_model_variations` normalizes the option `image4` to `image4_standard`
before the model axis is built. -/
theorem expansion_order_counterexample :
    expandTasks
        ((resolveModels (fun _ => none)
          (parse_model_variations (("[image3,image4]").data))).getD [])
        (styleRefAxis none) (styleRefAxis none)
        (parse_prompt_variations (("a [cat,dog]").data)).1 1
      ≠ [⟨("image3").data, none, none, ("a cat").data, 0⟩,
         ⟨("image3").data, none, none, ("a dog").data, 0⟩,
         ⟨("image4").data, none, none, ("a cat").data, 0⟩,
         ⟨("image4").data, none, none, ("a dog").data, 0⟩] := by decide

/-- C4 amended: the expansion enumerates tasks in outer-to-inner axis order
model → style-reference → composition-reference → prompt → iteration-index;
for model=[image3,image4], prompt="a [cat,dog]", iterations=1 the expansion is
exactly (image3,"a cat"), (image3,"a dog"), (image4_standard,"a cat"),
(image4_standard,"a dog") in that order — the model option `image4` is
normalized to `image4_standard`. -/
theorem expansion_order_amended :
    expandTasks
        ((resolveModels (fun _ => none)
          (parse_model_variations (("[image3,image4]").data))).getD [])
        (styleRefAxis none) (styleRefAxis none)
        (parse_prompt_variations (("a [cat,dog]").data)).1 1
      = [⟨("image3").data, none, none, ("a cat").data, 0⟩,
         ⟨("image3").data, none, none, ("a dog").data, 0⟩,
         ⟨("image4_standard").data, none, none, ("a cat").data, 0⟩,
         ⟨("image4_standard").data, none, none, ("a dog").data, 0⟩] := by decide

/-- C7 counterexample: a bracket block with an empty option list does not
raise any error — `parse_prompt_variations "[]"` returns normally, treating
the block as one empty option and substituting the empty string (the code base
has no `EmptyVariationAxis` error at all). -/
theorem empty_bracket_counterexample :
    parse_prompt_variations (("[]").data) = ([[]], [[]]) := by decide

/-- C7 amended: a bracket block with an empty option list is treated as a
single empty option (the block is replaced by the empty string, producing one
prompt, with no error raised), and a string with an unmatched bracket is
treated as literal text, producing a single-element axis with no expansion. -/
theorem empty_bracket_amended :
    parse_prompt_variations (("[]").data) = ([[]], [[]])
    ∧ (∀ s : Str, findBlocks s = [] → parse_prompt_variations s = ([s], []))
    ∧ parse_prompt_variations (("a [cat").data) = ([("a [cat").data], []) := by
  refine ⟨by decide, ?_, by decide⟩
  intro s hs
  simp [parse_prompt_variations, hs]

/-- Witness for C7's amended claim at a concrete input. -/
theorem empty_bracket_amended_witness :
    findBlocks (("plain text").data) = []
    ∧ parse_prompt_variations (("plain text").data) = ([("plain text").data], []) :=
  ⟨by decide, empty_bracket_amended.2.1 (("plain text").data) (by decide)⟩

theorem digitChar_toNat {d : ℕ} (h : d < 10) : (digitChar d).toNat = 48 + d := by
  interval_cases d <;> decide

theorem digitsVal_append (l : Str) (c : Char) :
    digitsVal (l ++ [c]) = 10 * digitsVal l + (c.toNat - 48) := by
  unfold digitsVal
  rw [List.foldl_append]
  rfl

theorem digitsVal_natDigitsF :
    ∀ fuel n, n < fuel → digitsVal (natDigitsF fuel n) = n := by
  intro fuel
  induction fuel with
  | zero => intro n hn; omega
  | succ fuel ih =>
    intro n hn
    unfold natDigitsF
    by_cases h : n < 10
    · simp only [h, if_true]
      show digitsVal [digitChar n] = n
      unfold digitsVal
      simp [digitChar_toNat h]
    · simp only [h, if_false]
      rw [digitsVal_append, ih (n / 10) (by omega), digitChar_toNat (by omega)]
      omega

theorem digitsVal_natDigits (n : ℕ) : digitsVal (natDigits n) = n :=
  digitsVal_natDigitsF (n + 1) n (by omega)

theorem natDigits_inj : Function.Injective natDigits := by
  intro a b h
  have h2 := congrArg digitsVal h
  rwa [digitsVal_natDigits, digitsVal_natDigits] at h2

theorem uniqueCandidate_inj (name ext : Str) :
    Function.Injective (uniqueCandidate name ext) := by
  intro a b h
  unfold uniqueCandidate at h
  have h1 := List.append_cancel_left h
  simp only [List.cons.injEq, true_and] at h1
  exact natDigits_inj (List.append_cancel_right h1)

theorem exists_candidate_notMem (fs : List Str) (name ext : Str) :
    ∃ j, j < fs.length + 1 ∧ uniqueCandidate name ext (1 + j) ∉ fs := by
  by_contra hc
  push_neg at hc
  have hinj : Function.Injective (fun j : ℕ => uniqueCandidate name ext (1 + j)) := by
    intro a b h
    have := uniqueCandidate_inj name ext h
    omega
  have hsub : (Finset.range (fs.length + 1)).image
      (fun j => uniqueCandidate name ext (1 + j)) ⊆ fs.toFinset := by
    intro x hx
    simp only [Finset.mem_image, Finset.mem_range] at hx
    obtain ⟨j, hj, rfl⟩ := hx
    rw [List.mem_toFinset]
    exact hc j hj
  have h1 : fs.length + 1 ≤ fs.toFinset.card := by
    have h2 := Finset.card_le_card hsub
    rwa [Finset.card_image_of_injective _ hinj, Finset.card_range] at h2
  have h3 := fs.toFinset_card_le
  omega

theorem firstFreeFrom_spec (fs : List Str) (name ext : Str) :
    ∀ fuel k, (∃ j, j < fuel ∧ uniqueCandidate name ext (k + j) ∉ fs) →
    k ≤ firstFreeFrom fs name ext fuel k
    ∧ uniqueCandidate name ext (firstFreeFrom fs name ext fuel k) ∉ fs
    ∧ ∀ i, k ≤ i → i < firstFreeFrom fs name ext fuel k →
        uniqueCandidate name ext i ∈ fs := by
  intro fuel
  induction fuel with
  | zero =>
    intro k h
    obtain ⟨j, hj, _⟩ := h
    omega
  | succ fuel ih =>
    intro k h
    obtain ⟨j, hj, hfree⟩ := h
    by_cases hk : uniqueCandidate name ext k ∈ fs
    · rw [show firstFreeFrom fs name ext (fuel + 1) k
          = firstFreeFrom fs name ext fuel (k + 1) by simp [firstFreeFrom, hk]]
      have hj0 : j ≠ 0 := by
        rintro rfl
        simp only [Nat.add_zero] at hfree
        exact hfree hk
      have hrec := ih (k + 1)
        ⟨j - 1, by omega, by rwa [show k + 1 + (j - 1) = k + j by omega]⟩
      refine ⟨by omega, hrec.2.1, ?_⟩
      intro i h1 h2
      rcases eq_or_lt_of_le h1 with rfl | hlt
      · exact hk
      · exact hrec.2.2 i (by omega) h2
    · rw [show firstFreeFrom fs name ext (fuel + 1) k = k by simp [firstFreeFrom, hk]]
      exact ⟨le_refl k, hk, fun i h1 h2 => by omega⟩

/-- C8 counterexample: rendering the template `out/(model)_(n).png` twice for
model `image3`, iteration 1, overwrite=false, through the actual per-task
pipeline (`get_variation_filename` then `get_unique_filename`) does not yield
the claimed `out/image3_1_1.png`: `get_variation_filename` appends an
underscore plus the (here empty) variation suffix before the extension, so the
first render is `out/image3_1_.png` and the second is `out/image3_1__1.png`. -/
theorem unique_filename_scenario_counterexample :
    taskFilename (("out/{model}_{n}.png").data) (("sunset").data)
        (("sunset").data) sampleTokens sampleClock [] false
      = .ok (("out/image3_1_.png").data)
    ∧ taskFilename (("out/{model}_{n}.png").data) (("sunset").data)
        (("sunset").data) sampleTokens sampleClock
        [(("out/image3_1_.png").data)] false
      ≠ .ok (("out/image3_1_1.png").data) := by
  exact ⟨by decide, by decide⟩

/-- C8 amended: uniqueness resolution returns the rendered path unchanged when
overwrite is true or no file exists at the path, and otherwise returns the
first path of the form name_1, name_2, … (suffix inserted before the
extension) that does not exist; rendering the template `out/(model)_(n).png`
twice for the same model with overwrite=false yields `out/image3_1__1.png`
the second time, since the rendering step appends an underscore and the empty
variation suffix before the extension. -/
theorem unique_filename_amended :
    (∀ (fs : List Str) (base : Str) (ow : Bool), (ow = true ∨ base ∉ fs) →
        get_unique_filename fs base ow = base)
    ∧ (∀ (fs : List Str) (base : Str), base ∈ fs →
        ∃ K, 1 ≤ K
          ∧ get_unique_filename fs base false
              = uniqueCandidate (splitext base).1 (splitext base).2 K
          ∧ uniqueCandidate (splitext base).1 (splitext base).2 K ∉ fs
          ∧ ∀ j, 1 ≤ j → j < K →
              uniqueCandidate (splitext base).1 (splitext base).2 j ∈ fs)
    ∧ taskFilename (("out/{model}_{n}.png").data) (("sunset").data)
        (("sunset").data) sampleTokens sampleClock
        [(("out/image3_1_.png").data)] false
      = .ok (("out/image3_1__1.png").data) := by
  refine ⟨?_, ?_, by decide⟩
  · intro fs base ow h
    unfold get_unique_filename
    rw [if_pos h]
  · intro fs base hmem
    unfold get_unique_filename
    rw [if_neg (by simp [hmem])]
    have hex : ∃ j, j < fs.length + 1
        ∧ uniqueCandidate (splitext base).1 (splitext base).2 (1 + j) ∉ fs :=
      exists_candidate_notMem fs (splitext base).1 (splitext base).2
    have hspec := firstFreeFrom_spec fs (splitext base).1 (splitext base).2
      (fs.length + 1) 1 hex
    exact ⟨firstFreeFrom fs (splitext base).1 (splitext base).2 (fs.length + 1) 1,
      hspec.1, rfl, hspec.2.1, fun j h1 h2 => hspec.2.2 j h1 h2⟩

/-- Witness for C8's amended claim at concrete inputs. -/
theorem unique_filename_amended_witness :
    get_unique_filename [] (("a.png").data) false = ("a.png").data
    ∧ ∃ K, 1 ≤ K
        ∧ get_unique_filename [(("a.png").data)] (("a.png").data) false
            = uniqueCandidate (splitext (("a.png").data)).1
                (splitext (("a.png").data)).2 K
        ∧ uniqueCandidate (splitext (("a.png").data)).1
            (splitext (("a.png").data)).2 K ∉ [(("a.png").data)]
        ∧ ∀ j, 1 ≤ j → j < K →
            uniqueCandidate (splitext (("a.png").data)).1
              (splitext (("a.png").data)).2 j ∈ [(("a.png").data)] :=
  ⟨unique_filename_amended.1 [] (("a.png").data) false (Or.inr (by decide)),
   unique_filename_amended.2.1 [(("a.png").data)] (("a.png").data) (by decide)⟩

/-- C9 counterexample: rendering the template `x_(time).png` through the
engine twice with overwrite=true, for the same token dictionary but at two
different wall-clock instants, yields two different paths — the `time` token
reads the clock at render time. -/
theorem render_idempotence_counterexample :
    renderResolve (("x_{time}.png").data) sampleTokens sampleClock [] true
      ≠ renderResolve (("x_{time}.png").data) sampleTokens sampleClock2 [] true := by
  decide

/-- C9 amended: for every fixed token dictionary and template, rendering with
overwrite=true yields the same path both times whenever the two renders
observe the same clock reading; in particular the result is independent of
the filesystem state, so the file created by the first render cannot change
the second.  (With a date/time token in the template, renders at different
clock readings may differ.) -/
theorem render_idempotence_amended :
    ∀ (template : Str) (t : Tokens) (c : Clock) (fs1 fs2 : List Str),
      renderResolve template t c fs1 true = renderResolve template t c fs2 true := by
  intro template t c fs1 fs2
  unfold renderResolve
  have h : ∀ (fs : List Str) (p : Str), get_unique_filename fs p true = p :=
    fun fs p => by simp [get_unique_filename]
  simp [h]

/-- C10: the rendered value of the `prompt` token is the prompt text with
every space replaced by an underscore and truncated to at most 30 characters;
it never contains a space, and a prompt longer than 30 characters never
appears in full. -/
theorem prompt_token_spec (t : Tokens) :
    promptTokenValue t = (spaceToUnderscore t.prompt).take 30
    ∧ (promptTokenValue t).length ≤ 30
    ∧ (∀ c, c ∈ promptTokenValue t → c ≠ ' ')
    ∧ (30 < t.prompt.length → (promptTokenValue t).length < t.prompt.length) := by
  refine ⟨rfl, ?_, ?_, ?_⟩
  · unfold promptTokenValue
    rw [List.length_take]
    omega
  · intro c hc
    unfold promptTokenValue at hc
    have hmem := List.mem_of_mem_take hc
    unfold spaceToUnderscore at hmem
    obtain ⟨a, _, rfl⟩ := List.mem_map.mp hmem
    by_cases ha : a = ' ' <;> simp [ha]
  · intro h
    unfold promptTokenValue
    rw [List.length_take]
    have : (spaceToUnderscore t.prompt).length = t.prompt.length := by
      unfold spaceToUnderscore
      rw [List.length_map]
    omega

/-- Witness for C10 at a concrete token dictionary with a 45-character
prompt. -/
theorem prompt_token_spec_witness :
    promptTokenValue longPromptTokens
        = (spaceToUnderscore longPromptTokens.prompt).take 30
    ∧ (promptTokenValue longPromptTokens).length < longPromptTokens.prompt.length :=
  ⟨(prompt_token_spec longPromptTokens).1,
   (prompt_token_spec longPromptTokens).2.2.2 (by decide)⟩

theorem check_from_none (resp : ℕ → StatusData)
    (h : ∀ n, isTerminal (resp n) = false) :
    ∀ fuel k, check_job_status_from resp fuel k = none := by
  intro fuel
  induction fuel with
  | zero => intro k; rfl
  | succ fuel ih =>
    intro k
    have hk := h k
    simp only [isTerminal, Bool.or_eq_false_iff, decide_eq_false_iff_not] at hk
    simp only [check_job_status_from, if_neg hk.1, if_neg hk.2, ih (k + 1),
      Option.map_none']

theorem check_from_spec (resp : ℕ → StatusData) (N : ℕ)
    (hN : isTerminal (resp N) = true)
    (hmin : ∀ k, k < N → isTerminal (resp k) = false) :
    ∀ fuel j, j ≤ N → N - j < fuel →
      check_job_status_from resp fuel j
        = some (if (resp N).status = some (("succeeded").data)
                then (PollOutcome.succeeded (resp N), 2 * (N - j))
                else (PollOutcome.failed (jobFailedMsg (resp N)), 2 * (N - j))) := by
  intro fuel
  induction fuel with
  | zero => intro j h1 h2; omega
  | succ fuel ih =>
    intro j h1 h2
    rcases eq_or_lt_of_le h1 with rfl | hlt
    · simp only [check_job_status_from, Nat.sub_self]
      by_cases hs : (resp j).status = some (("succeeded").data)
      · rw [if_pos hs, if_pos hs]
      · rw [if_neg hs, if_neg hs]
        have hf : (resp j).status = some (("failed").data) := by
          simp only [isTerminal, Bool.or_eq_true, decide_eq_true_eq] at hN
          tauto
        rw [if_pos hf]
    · have hj := hmin j hlt
      simp only [isTerminal, Bool.or_eq_false_iff, decide_eq_false_iff_not] at hj
      rw [show check_job_status_from resp (fuel + 1) j
          = (check_job_status_from resp fuel (j + 1)).map (fun p => (p.1, p.2 + 2)) by
        simp only [check_job_status_from, if_neg hj.1, if_neg hj.2]]
      rw [ih (j + 1) (by omega) (by omega)]
      by_cases hs : (resp N).status = some (("succeeded").data)
      · rw [if_pos hs, if_pos hs]
        simp only [Option.map_some']
        congr 2
        omega
      · rw [if_neg hs, if_neg hs]
        simp only [Option.map_some']
        congr 2
        omega

/-- C6: the poller returns the response payload exactly when a response's
status is `succeeded`, raises an error carrying the remote-provided error
detail exactly when it is `failed`, and on any other status sleeps 2 time
units and queries again with no maximum retry count; when the status sequence
reaches a terminal value at index N the poller terminates after N re-queries
and 2N time units of sleep, and with no terminal response it never returns. -/
theorem poller_terminal_spec (resp : ℕ → StatusData) (N : ℕ)
    (hN : isTerminal (resp N) = true)
    (hmin : ∀ k, k < N → isTerminal (resp k) = false) :
    (∀ fuel, N < fuel →
      check_job_status resp fuel
        = some (if (resp N).status = some (("succeeded").data)
                then (PollOutcome.succeeded (resp N), 2 * N)
                else (PollOutcome.failed (jobFailedMsg (resp N)), 2 * N)))
    ∧ (∀ resp2 : ℕ → StatusData, (∀ n, isTerminal (resp2 n) = false) →
        ∀ fuel, check_job_status resp2 fuel = none) := by
  constructor
  · intro fuel hfuel
    have h := check_from_spec resp N hN hmin fuel 0 (by omega) (by omega)
    simpa [check_job_status] using h
  · intro resp2 h fuel
    exact check_from_none resp2 h fuel 0

/-- Witness for C6: two pending responses then `succeeded`. -/
theorem poller_terminal_spec_witness :
    isTerminal (pollResp 2) = true
    ∧ check_job_status pollResp 5 = some (.succeeded succeededStatus, 4) := by
  refine ⟨by decide, ?_⟩
  have h := (poller_terminal_spec pollResp 2 (by decide)
    (by intro k hk; interval_cases k <;> decide)).1 5 (by omega)
  simpa using h

/-- C2 counterexample: an exception raised while rendering the output filename
(before `image_task`'s `try:` block) propagates out of the work unit, and
`future.result()` re-raises it inside the dispatcher loop. -/
theorem work_unit_exception_counterexample :
    image_task renderFailOracle = .error (.exc (("boom").data))
    ∧ dispatcherLoop [image_task renderFailOracle]
        = .error (.exc (("boom").data)) := by
  exact ⟨by decide, by decide⟩

/-- C2 amended: exceptions raised inside the work unit's `try:` block —
submission, polling, and download — are caught at the work-unit boundary and
converted into a failed outcome, so they never propagate into the dispatcher
loop; but the rate-limiter acquisition, filename rendering and uniqueness
resolution run before the `try:` block, and an exception there escapes the
work unit and is re-raised by `future.result()` in the dispatcher loop. -/
theorem work_unit_exception_amended :
    ∀ (o : WorkOracles) (base out : Str),
      o.render = .ok base → o.unique base = .ok out →
      (image_task o = .ok true ∨ image_task o = .ok false)
      ∧ (∀ e, image_task_body o out = .error e → image_task o = .ok false) := by
  intro o base out h1 h2
  constructor
  · simp only [image_task, h1, h2]
    cases hb : image_task_body o out with
    | ok b =>
      cases b
      · right; rfl
      · left; rfl
    | error e => right; rfl
  · intro e he
    simp only [image_task, h1, h2, he]

/-- Witness for C2's amended claim: a work unit whose submission raises after
rendering succeeded ends in a failed outcome, not an exception. -/
theorem work_unit_exception_amended_witness :
    (image_task submitFailOracle = .ok true
      ∨ image_task submitFailOracle = .ok false)
    ∧ image_task submitFailOracle = .ok false :=
  ⟨(work_unit_exception_amended submitFailOracle (("p.png").data)
      (("p.png").data) rfl rfl).1,
   (work_unit_exception_amended submitFailOracle (("p.png").data)
      (("p.png").data) rfl rfl).2 (.exc (("http 500").data)) rfl⟩

/-- C5 counterexample: the image-generation submission wrapper
`generate_image` re-raises HTTP 429 immediately — even when a single retry
would have succeeded — with no cool-down sleep and no resubmission; only 5xx
and network errors are retried locally. -/
theorem submit_429_counterexample :
    generate_image
        (fun a => if a = 0 then (.error (.http 429) : Except ApiErr Unit)
                  else .ok ()) 3 2
      = some (.error (.http 429), 0) := by
  decide

/-- C5 amended: the background-replacement work unit `replace_bg_task` waits
a fixed 70-unit cool-down on HTTP 429 and resubmits within the same
invocation (up to 3 attempts): a task whose submission returns 429 twice and
then succeeds ends with a success outcome after 140 time units of cool-down.
The image-generation submission `generate_image` instead retries only 5xx
and network errors, with exponential backoff doubling per attempt, and
re-raises 429 immediately. -/
theorem submit_429_amended :
    replace_bg_task (fun a => if a < 2 then .error (.http 429) else .ok true)
      = some (true, 140)
    ∧ generate_image
        (fun a => if a < 2 then (.error (.http 503) : Except ApiErr Unit)
                  else .ok ()) 3 2
      = some (.ok (), 6) := by
  refine ⟨by decide, ?_⟩
  norm_num [generate_image, generate_image_go]

theorem sorted_getD_mono {as : List ℚ} (hs : as.Sorted (· ≤ ·))
    {i j : ℕ} (hij : i ≤ j) (hj : j < as.length) :
    as.getD i 0 ≤ as.getD j 0 := by
  have hi : i < as.length := lt_of_le_of_lt hij hj
  rw [List.getD_eq_getElem as 0 hi, List.getD_eq_getElem as 0 hj]
  exact List.Sorted.rel_get_of_le hs (a := ⟨i, hi⟩) (b := ⟨j, hj⟩) hij

theorem windowCount_le (as : List ℚ) (p : ℚ) (m : ℕ)
    (hs : as.Sorted (· ≤ ·))
    (hsp : ∀ i, i + m < as.length → p ≤ as.getD (i + m) 0 - as.getD i 0) :
    ∀ T, windowCount as p T ≤ m := by
  intro T
  by_contra hc
  push_neg at hc
  set S := (Finset.range as.length).filter
    (fun i => T - p < as.getD i 0 ∧ as.getD i 0 ≤ T) with hS
  have hwc : windowCount as p T = S.card := rfl
  rw [hwc] at hc
  have hne : S.Nonempty := by
    rw [← Finset.card_pos]
    omega
  set lo := S.min' hne with hlo
  set hi := S.max' hne with hhi
  have hloS : lo ∈ S := S.min'_mem hne
  have hhiS : hi ∈ S := S.max'_mem hne
  have hsub : S ⊆ Finset.Icc lo hi := by
    intro x hx
    rw [Finset.mem_Icc]
    exact ⟨S.min'_le x hx, S.le_max' x hx⟩
  have hcard : S.card ≤ hi + 1 - lo := by
    have := Finset.card_le_card hsub
    rwa [Nat.card_Icc] at this
  have hgap : lo + m ≤ hi := by omega
  have hhilen : hi < as.length := by
    have := (Finset.mem_filter.mp hhiS).1
    exact Finset.mem_range.mp this
  have hlow := (Finset.mem_filter.mp hloS).2.1
  have hhigh := (Finset.mem_filter.mp hhiS).2.2
  have hmlen : lo + m < as.length := by omega
  have h1 := hsp lo hmlen
  have h2 : as.getD (lo + m) 0 ≤ as.getD hi 0 := sorted_getD_mono hs hgap hhilen
  linarith

theorem filter_upclosed_sorted {l : List ℚ} (p : ℚ → Bool)
    (hl : l.Sorted (· ≤ ·))
    (hp : ∀ x y, x ≤ y → p x = true → p y = true) :
    ∃ k, k ≤ l.length ∧ l.filter p = l.drop k ∧ ∀ x ∈ l.take k, p x = false := by
  induction l with
  | nil => exact ⟨0, by simp⟩
  | cons a l ih =>
    rw [List.sorted_cons] at hl
    by_cases ha : p a = true
    · refine ⟨0, by simp, ?_, by simp⟩
      rw [List.drop_zero, List.filter_cons_of_pos ha]
      congr 1
      rw [List.filter_eq_self]
      intro x hx
      exact hp a x (hl.1 x hx) ha
    · obtain ⟨k, hk, hfil, htake⟩ := ih hl.2
      refine ⟨k + 1, by simp; omega, ?_, ?_⟩
      · rw [List.filter_cons_of_neg (by simpa using ha), hfil]
        rfl
      · intro x hx
        rw [List.take_succ_cons] at hx
        rcases List.mem_cons.mp hx with rfl | hx2
        · simpa using ha
        · exact htake x hx2

theorem getD_mem_take {l : List ℚ} {i n : ℕ} (hi : i < n) (hl : i < l.length) :
    l.getD i 0 ∈ l.take n := by
  rw [List.getD_eq_getElem l 0 hl]
  refine List.mem_iff_getElem.mpr ⟨i, ?_, ?_⟩
  · rw [List.length_take]
    omega
  · rw [List.getElem_take]

theorem getD_append_left {l : List ℚ} {a : ℚ} {i : ℕ} (h : i < l.length) :
    (l ++ [a]).getD i 0 = l.getD i 0 := by
  rw [List.getD_eq_getElem (l ++ [a]) 0 (by rw [List.length_append]; simp; omega),
    List.getD_eq_getElem l 0 h]
  exact List.getElem_append_left h

theorem getD_append_last {l : List ℚ} {a : ℚ} :
    (l ++ [a]).getD l.length 0 = a := by
  rw [List.getD_eq_getElem (l ++ [a]) 0 (by simp)]
  simp

theorem step_inv_of (cfg : RLConfig) (s : RLState) (hist : List ℚ) (a : ℚ)
    (d' : ℕ) (hmax : 1 ≤ cfg.maxCalls) (hinv : RLInv cfg s hist)
    (ha_ge : ∀ x ∈ hist, x ≤ a) (ha_pos : 0 < a)
    (hgap : hist ≠ [] → cfg.minDelay ≤ a - s.lastCallTime)
    (hd' : d' ≤ hist.length)
    (hdropped : ∀ x ∈ hist.take d', cfg.period ≤ a - x)
    (hlen : hist.length - d' ≤ cfg.maxCalls - 1) :
    RLInv cfg ⟨hist.drop d' ++ [a], a⟩ (hist ++ [a]) := by
  constructor
  · refine List.pairwise_append.mpr ⟨hinv.sorted, List.sorted_singleton a, ?_⟩
    intro x hx y hy
    rw [List.mem_singleton] at hy
    exact hy ▸ ha_ge x hx
  · intro x hx
    rcases List.mem_append.mp hx with hx1 | hx2
    · exact hinv.pos x hx1
    · rw [List.mem_singleton] at hx2
      exact hx2 ▸ ha_pos
  · intro x hx
    rcases List.mem_append.mp hx with hx1 | hx2
    · exact ha_ge x hx1
    · rw [List.mem_singleton] at hx2
      exact le_of_eq hx2
  · right
    exact List.getLast?_concat hist
  · refine ⟨d', by rw [List.length_append]; simp; omega, ?_, ?_, ?_⟩
    · rw [List.drop_append_of_le_length hd']
    · intro x hx
      rw [List.take_append_of_le_length hd'] at hx
      exact hdropped x hx
    · rw [List.length_append]
      simp only [List.length_singleton]
      omega
  · rw [List.chain'_append]
    refine ⟨hinv.chain, List.chain'_singleton a, ?_⟩
    intro x hx y hy
    simp only [List.head?_cons, Option.mem_def, Option.some.injEq] at hy
    subst hy
    rcases hinv.lastSpec with ⟨h1, _, _⟩ | h2
    · rw [h1] at hx
      simp at hx
    · rw [Option.mem_def, h2, Option.some.injEq] at hx
      subst hx
      exact hgap (by rintro rfl; simp at h2)
  · intro i hi
    rw [List.length_append, List.length_singleton] at hi
    by_cases hcase : i + cfg.maxCalls < hist.length
    · rw [getD_append_left hcase, getD_append_left (by omega)]
      exact hinv.spaced i hcase
    · have heq : i + cfg.maxCalls = hist.length := by omega
      rw [heq, getD_append_last, getD_append_left (by omega)]
      exact hdropped _ (getD_mem_take (by omega) (by omega))

theorem sorted_drop {l : List ℚ} (h : l.Sorted (· ≤ ·)) (n : ℕ) :
    (l.drop n).Sorted (· ≤ ·) := by
  have h2 := List.take_append_drop n l
  rw [← h2] at h
  exact (List.pairwise_append.mp h).2.1

theorem acquire_step (cfg : RLConfig) (s : RLState) (hist : List ℚ) (now0 : ℚ)
    (hmax : 1 ≤ cfg.maxCalls) (hinv : RLInv cfg s hist)
    (hpos : 0 < now0) (hge : s.lastCallTime ≤ now0) :
    ∃ s' a, acquire cfg s now0 = some (s', a)
      ∧ now0 ≤ a ∧ s'.lastCallTime = a ∧ RLInv cfg s' (hist ++ [a]) := by
  obtain ⟨d, hd_le, hcalls, hdropped, hlenb⟩ := hinv.dropSpec
  simp only [acquire]
  set now1 := if 0 < cfg.minDelay ∧ 0 < s.lastCallTime
      ∧ now0 - s.lastCallTime < cfg.minDelay
    then s.lastCallTime + cfg.minDelay else now0 with hnow1def
  have hn1ge : now0 ≤ now1 := by
    rw [hnow1def]
    split
    · rename_i h
      linarith [h.2.2]
    · exact le_refl now0
  have hlast1 : s.lastCallTime ≤ now1 := le_trans hge hn1ge
  have hpos1 : 0 < now1 := lt_of_lt_of_le hpos hn1ge
  have hgap1 : hist ≠ [] → cfg.minDelay ≤ now1 - s.lastCallTime := by
    intro hne
    have hlastpos : 0 < s.lastCallTime := by
      rcases hinv.lastSpec with ⟨h1, _, _⟩ | h2
      · exact absurd h1 hne
      · obtain ⟨hne2, heq⟩ := List.mem_getLast?_eq_getLast (Option.mem_def.mpr h2)
        exact heq ▸ hinv.pos _ (List.getLast_mem hne2)
    rw [hnow1def]
    split
    · linarith
    · rename_i h
      by_cases hmd : 0 < cfg.minDelay
      · by_cases hlt : now0 - s.lastCallTime < cfg.minDelay
        · exact absurd ⟨hmd, hlastpos, hlt⟩ h
        · linarith [not_lt.mp hlt]
      · linarith [not_lt.mp hmd, hge]
  have hp1 : ∀ x y : ℚ, x ≤ y → decide (now1 - x < cfg.period) = true →
      decide (now1 - y < cfg.period) = true := by
    intro x y hxy hx
    rw [decide_eq_true_eq] at hx ⊢
    linarith
  obtain ⟨k1, hk1_le, hfil1, htake1⟩ :=
    filter_upclosed_sorted (fun t => decide (now1 - t < cfg.period))
      (sorted_drop hinv.sorted d) hp1
  rw [List.length_drop] at hk1_le
  have hcalls1 : s.calls.filter (fun t => decide (now1 - t < cfg.period))
      = hist.drop (d + k1) := by
    rw [hcalls, hfil1, List.drop_drop]
  have hd1_le : d + k1 ≤ hist.length := by omega
  have hdropped1 : ∀ a' : ℚ, now1 ≤ a' →
      ∀ x ∈ hist.take (d + k1), cfg.period ≤ a' - x := by
    intro a' ha' x hx
    rw [List.take_add] at hx
    rcases List.mem_append.mp hx with hx1 | hx2
    · have h3 := hdropped x hx1
      have hl1 : s.lastCallTime ≤ a' := le_trans hlast1 ha'
      linarith
    · have h3 := htake1 x hx2
      simp only [decide_eq_false_iff_not, not_lt] at h3
      linarith
  have hge_all1 : ∀ x ∈ hist, x ≤ now1 :=
    fun x hx => le_trans (hinv.hle x hx) hlast1
  rw [hcalls1]
  by_cases hbranch : cfg.maxCalls ≤ (hist.drop (d + k1)).length
  · -- window full: sleep until the oldest call exits, re-filter, admit
    rw [if_pos hbranch]
    rcases hdl : hist.drop (d + k1) with _ | ⟨c0, rest⟩
    · rw [hdl, List.length_nil] at hbranch
      omega
    · dsimp only
      have hc0mem : c0 ∈ hist.drop (d + k1) := by
        rw [hdl]
        exact List.mem_cons_self c0 rest
      have hc0fil : decide (now1 - c0 < cfg.period) = true := by
        have h4 : c0 ∈ s.calls.filter (fun t => decide (now1 - t < cfg.period)) := by
          rw [hcalls1]
          exact hc0mem
        exact (List.mem_filter.mp h4).2
      rw [decide_eq_true_eq] at hc0fil
      have hslp : 0 < cfg.period - (now1 - c0) := by linarith
      rw [if_pos hslp]
      set now2 := now1 + (cfg.period - (now1 - c0)) with hnow2def
      have hn2 : now2 = c0 + cfg.period := by rw [hnow2def]; ring
      have hn2ge : now1 ≤ now2 := by rw [hnow2def]; linarith
      have hp2 : ∀ x y : ℚ, x ≤ y → decide (now2 - x < cfg.period) = true →
          decide (now2 - y < cfg.period) = true := by
        intro x y hxy hx
        rw [decide_eq_true_eq] at hx ⊢
        linarith
      obtain ⟨k2, hk2_le, hfil2, htake2⟩ :=
        filter_upclosed_sorted (fun t => decide (now2 - t < cfg.period))
          (sorted_drop hinv.sorted (d + k1)) hp2
      rw [List.length_drop] at hk2_le
      have hcalls2 : (c0 :: rest).filter (fun t => decide (now2 - t < cfg.period))
          = hist.drop (d + k1 + k2) := by
        rw [← hdl, hfil2, List.drop_drop]
      have hp2c0 : decide (now2 - c0 < cfg.period) = false := by
        rw [decide_eq_false_iff_not, not_lt, hn2]
        ring_nf
        exact le_refl _
      have hk2pos : 1 ≤ k2 := by
        by_contra hk20
        have hk2z : k2 = 0 := by omega
        rw [hk2z, List.drop_zero] at hfil2
        have h5 : c0 ∈ (hist.drop (d + k1)).filter
            (fun t => decide (now2 - t < cfg.period)) := by
          rw [hfil2]
          exact hc0mem
        have h6 := (List.mem_filter.mp h5).2
        rw [hp2c0] at h6
        exact Bool.false_ne_true h6
      have hlen1 : (hist.drop (d + k1)).length ≤ cfg.maxCalls := by
        have h7 : (hist.drop (d + k1)).length ≤ s.calls.length := by
          rw [← hcalls1]
          exact List.length_filter_le _ _
        rw [hcalls, List.length_drop] at h7
        rw [List.length_drop]
        omega
      refine ⟨⟨hist.drop (d + k1 + k2) ++ [now2], now2⟩, now2, by rw [hcalls2], ?_, rfl, ?_⟩
      · exact le_trans hn1ge hn2ge
      · refine step_inv_of cfg s hist now2 (d + k1 + k2) hmax hinv
          (fun x hx => le_trans (hge_all1 x hx) hn2ge)
          (lt_of_lt_of_le hpos1 hn2ge)
          (fun hne => le_trans (hgap1 hne) (by linarith))
          (by omega)
          ?_ ?_
        · intro x hx
          rw [List.take_add] at hx
          rcases List.mem_append.mp hx with hx1 | hx2
          · exact hdropped1 now2 hn2ge x hx1
          · have h8 := htake2 x hx2
            simp only [decide_eq_false_iff_not, not_lt] at h8
            linarith
        · rw [List.length_drop] at hbranch hlen1
          omega
  · -- window not full: admit at now1
    rw [if_neg hbranch]
    refine ⟨⟨hist.drop (d + k1) ++ [now1], now1⟩, now1, rfl, hn1ge, rfl, ?_⟩
    refine step_inv_of cfg s hist now1 (d + k1) hmax hinv hge_all1 hpos1 hgap1
      hd1_le (hdropped1 now1 (le_refl now1)) ?_
    rw [List.length_drop] at hbranch
    omega

theorem RLInv_init (cfg : RLConfig) : RLInv cfg initRLState [] := by
  constructor
  · exact List.sorted_nil
  · intro x hx; simp at hx
  · intro x hx; simp at hx
  · left; exact ⟨rfl, rfl, rfl⟩
  · exact ⟨0, by simp, rfl, by simp, by simp⟩
  · exact List.chain'_nil
  · intro i hi; simp at hi

theorem runAcquires_inv (cfg : RLConfig) (hmax : 1 ≤ cfg.maxCalls) :
    ∀ (arrivals : List ℚ) (s : RLState) (hist : List ℚ),
      RLInv cfg s hist → admissibleB cfg s arrivals = true →
      ∃ s' as, runAcquires cfg s arrivals = some (s', as)
        ∧ RLInv cfg s' (hist ++ as) := by
  intro arrivals
  induction arrivals with
  | nil =>
    intro s hist hinv _
    exact ⟨s, [], rfl, by simpa using hinv⟩
  | cons now rest ih =>
    intro s hist hinv hadm
    simp only [admissibleB, Bool.and_eq_true, decide_eq_true_eq] at hadm
    obtain ⟨⟨hpos, hge⟩, hmatch⟩ := hadm
    obtain ⟨s1, a, hacq, hnow_le, hlast, hinv1⟩ :=
      acquire_step cfg s hist now hmax hinv hpos hge
    rw [hacq] at hmatch
    obtain ⟨s', as, hrun, hinv'⟩ := ih s1 (hist ++ [a]) hinv1 hmatch
    refine ⟨s', a :: as, ?_, ?_⟩
    · simp only [runAcquires, hacq, hrun]
    · rwa [List.append_assoc, List.singleton_append] at hinv'

/-- C1: for every RateLimiter configuration with at least one allowed call,
and every admissible sequence of `acquire()` calls (each entered at a
positive clock reading no earlier than the previous admission), the recorded
admission timestamps satisfy: every trailing window of length `period`
contains at most `max_calls` admissions, and any two consecutive admissions
differ by at least `min_delay`. -/
theorem rateLimiter_invariant (cfg : RLConfig) (arrivals : List ℚ)
    (hmax : 1 ≤ cfg.maxCalls)
    (hadm : admissibleB cfg initRLState arrivals = true) :
    ∃ s as, runAcquires cfg initRLState arrivals = some (s, as)
      ∧ (∀ T : ℚ, windowCount as cfg.period T ≤ cfg.maxCalls)
      ∧ as.Chain' (fun a b => cfg.minDelay ≤ b - a) := by
  obtain ⟨s', as, hrun, hinv⟩ :=
    runAcquires_inv cfg hmax arrivals initRLState [] (RLInv_init cfg) hadm
  rw [List.nil_append] at hinv
  exact ⟨s', as, hrun,
    windowCount_le as cfg.period cfg.maxCalls hinv.sorted hinv.spaced,
    hinv.chain⟩

/-- Witness for C1: `max_calls = 1`, `period = 10`, two back-to-back calls at
times 1 and 2; the second admission is pushed to time 11. -/
theorem rateLimiter_invariant_witness :
    1 ≤ (RLConfig.mk 1 10 0).maxCalls
    ∧ admissibleB (RLConfig.mk 1 10 0) initRLState [1, 2] = true
    ∧ ∃ s as, runAcquires (RLConfig.mk 1 10 0) initRLState [1, 2] = some (s, as)
        ∧ (∀ T : ℚ, windowCount as (RLConfig.mk 1 10 0).period T
            ≤ (RLConfig.mk 1 10 0).maxCalls)
        ∧ as.Chain' (fun a b => (RLConfig.mk 1 10 0).minDelay ≤ b - a) := by
  have hadm : admissibleB (RLConfig.mk 1 10 0) initRLState [1, 2] = true := by
    norm_num [admissibleB, acquire, initRLState, List.filter]
  exact ⟨by norm_num, hadm,
    rateLimiter_invariant (RLConfig.mk 1 10 0) [1, 2] (by norm_num) hadm⟩
